import Mathlib

/-!
Verification of the f64_risc0 base-field arithmetic (64-bit STARK-friendly prime
field with modulus M = 2^64 - 2^32 + 1 in Montgomery representation) against its
natural-language specification.  The definitions below are a shallow embedding of
src/winterfell/math/src/field/f64_risc0/mod.rs: u64 values are modelled as Nat
with explicit wrapping (mod 2^64), u128 intermediates as Nat products.
-/

namespace F64

/-- Field modulus, 2^64 - 2^32 + 1 (constant `M` of the source). -/
def M : Nat := 0xFFFFFFFF00000001

/-- 2^128 mod M (constant `R2` of the source), used by `convert_into`. -/
def R2 : Nat := 0xFFFFFFFE00000001

/-- The multiplicative inverse of R = 2^64 modulo M (2^192 = 1 mod M, so this
coincides numerically with R2).  Used only in specification statements. -/
def RINV : Nat := 0xFFFFFFFE00000001

/-- u64 wrapping subtraction (`u64::wrapping_sub`), for arguments below 2^64. -/
def wsub64 (a b : Nat) : Nat := (0x10000000000000000 + a - b) % 0x10000000000000000

/-- The low-half computation of the source's `mont_red_cst`: from the low 64 bits
`xl` of the input, `(a, e) = xl.overflowing_add(xl << 32)` and then
`b = a.wrapping_sub(a >> 32).wrapping_sub(e)`. -/
def mont_b (xl : Nat) : Nat :=
  let s := xl + xl * 0x100000000 % 0x10000000000000000
  let a := s % 0x10000000000000000
  let e := s / 0x10000000000000000
  wsub64 (wsub64 a (a / 0x100000000)) e

/-- Constant-time Montgomery reduction (`mont_red_cst` of the source):
`(r, c) = xh.overflowing_sub(b)` then `r.wrapping_sub(0u32.wrapping_sub(c) as u64)`. -/
def mont_red_cst (x : Nat) : Nat :=
  let xl := x % 0x10000000000000000
  let xh := x / 0x10000000000000000
  let b := mont_b xl
  let r := wsub64 xh b
  wsub64 r (if xh < b then 0xFFFFFFFF else 0)

/-- A base field element: the backing `u64` raw value (Montgomery representation,
not necessarily canonical). -/
structure BaseElement where
  val : Nat
deriving DecidableEq

/-- `convert_into`: converts an integer into Montgomery representation. -/
def convert_into (value : Nat) : BaseElement := ⟨mont_red_cst (value * R2)⟩

/-- `from_mont`: wraps a raw value assumed to already be in Montgomery form. -/
def from_mont (value : Nat) : BaseElement := ⟨value⟩

/-- `ZERO = convert_into(0)`. -/
def ZERO : BaseElement := convert_into 0

/-- `ONE = convert_into(1)`. -/
def ONE : BaseElement := convert_into 1

/-- `Add::add`: `a + b` computed as `a - (M - b)` with a mask-based correction. -/
def add (a b : BaseElement) : BaseElement :=
  let x1 := wsub64 a.val (wsub64 M b.val)
  ⟨wsub64 x1 (if a.val < wsub64 M b.val then 0xFFFFFFFF else 0)⟩

/-- `Sub::sub`: wrapping subtraction with a mask-based correction. -/
def sub (a b : BaseElement) : BaseElement :=
  ⟨wsub64 (wsub64 a.val b.val) (if a.val < b.val then 0xFFFFFFFF else 0)⟩

/-- `Mul::mul`: Montgomery reduction of the 128-bit product of the raw values. -/
def mul (a b : BaseElement) : BaseElement := ⟨mont_red_cst (a.val * b.val)⟩

/-- `square` (the `FieldElement::square` used by `inv` and `exp7`). -/
def square (a : BaseElement) : BaseElement := mul a a

/-- `double`: `(self.val as u128) << 1`, split into low/overflow, then
`result.wrapping_sub(M * over)`. -/
def double (a : BaseElement) : BaseElement :=
  let ret := a.val * 2
  ⟨wsub64 (ret % 0x10000000000000000) (M * (ret / 0x10000000000000000))⟩

/-- `as_int`: the canonical integer of an element, `mont_red_cst(val as u128)`. -/
def as_int (a : BaseElement) : Nat := mont_red_cst a.val

/-- The Montgomery-decoded value of a raw 64-bit word: `val * R^-1 mod M`. -/
def decode (v : Nat) : Nat := v * RINV % M

/-- `equals` of the source: branch-free comparison of two raw u64 words, giving
the all-ones word when equal and zero otherwise.  The arithmetic shift
`((t | t.wrapping_neg()) as i64) >> 63` of a u64 word `x` is `x / 2^63` (0 or 1)
sign-extended to 64 bits. -/
def equals (lhs rhs : Nat) : Nat :=
  let t := lhs ^^^ rhs
  let s := (t ||| (0x10000000000000000 - t) % 0x10000000000000000) /
    0x8000000000000000 * 0xFFFFFFFFFFFFFFFF
  s ^^^ 0xFFFFFFFFFFFFFFFF

/-- `PartialEq::eq` of the source: `equals(self.val, other.val) == u64::MAX`. -/
def eqBE (a b : BaseElement) : Prop := equals a.val b.val = 0xFFFFFFFFFFFFFFFF

instance (a b : BaseElement) : Decidable (eqBE a b) := by
  unfold eqBE; infer_instance

-- INVERSION CHAIN (the source's `inv` in plain mode, with its helper `exp_acc`)
-- ============================================================================

/-- Repeated squaring, the loop inside `exp_acc`. -/
def squareN : Nat → BaseElement → BaseElement
  | 0, b => b
  | n + 1, b => squareN n (square b)

/-- `exp_acc::<N>(base, tail)`: squares `base` N times, multiplies by `tail`. -/
def exp_acc (n : Nat) (base tail : BaseElement) : BaseElement :=
  mul (squareN n base) tail

/-- The source's `inv` (plain mode, no hints): the fixed 72-multiplication
addition chain computing `base^(M-2)`. -/
def inv (a : BaseElement) : BaseElement :=
  let t2 := mul (square a) a
  let t3 := mul (square t2) a
  let t6 := exp_acc 3 t3 t3
  let t12 := exp_acc 6 t6 t6
  let t24 := exp_acc 12 t12 t12
  let t30 := exp_acc 6 t24 t6
  let t31 := mul (square t30) a
  let t63 := exp_acc 32 t31 t31
  mul (square t63) a

-- EXPONENTIATION (the source's `exp`)
-- ===================================

/-- Bit length of a value below `2^fuel`; `bitLen 64 power` models the source's
`64 - power.leading_zeros()`. -/
def bitLen : Nat → Nat → Nat
  | 0, _ => 0
  | fuel + 1, n => if n = 0 then 0 else bitLen fuel (n / 2) + 1

/-- The square-and-multiply loop of `exp`, MSB first: the countdown index `i`
corresponds to the source's `bit_length - 1 - i` loop variable, and
`power.testBit i` to `power & (1 << (bit_length - 1 - i)) != 0`. -/
def expLoop (x : BaseElement) (power : Nat) : Nat → BaseElement → BaseElement
  | 0, acc => acc
  | i + 1, acc =>
    let acc2 := mul acc acc
    expLoop x power i (if power.testBit i then mul acc2 x else acc2)

/-- The source's `exp`: special-cases `power = 0` to ONE, else runs the loop
over the significant bits of `power`. -/
def exp (x : BaseElement) (power : Nat) : BaseElement :=
  if power = 0 then ONE else expLoop x power (bitLen 64 power) ONE

/-- Number of base-field multiplications the `exp` loop executes for the low
`i` bits: one squaring per iteration plus one multiply per set bit.  This
mirrors the loop's control flow exactly. -/
def countMuls (power : Nat) : Nat → Nat
  | 0 => 0
  | i + 1 => (if power.testBit i then 2 else 1) + countMuls power i

/-- Total number of multiplications `exp` executes for a given exponent. -/
def expMuls (power : Nat) : Nat :=
  if power = 0 then 0 else countMuls power (bitLen 64 power)

/-- Number of set bits among the low `i` bits of `n`. -/
def popBelow (n : Nat) : Nat → Nat
  | 0 => 0
  | i + 1 => (if n.testBit i then 1 else 0) + popBelow n i

-- SERIALIZATION
-- =============

/-- Little-endian byte decomposition (`u64::to_le_bytes` when the width is 8). -/
def toLeBytes : Nat → Nat → List Nat
  | 0, _ => []
  | k + 1, n => n % 256 :: toLeBytes k (n / 256)

/-- Little-endian byte recomposition (`u64::from_le_bytes`). -/
def fromLeBytes : List Nat → Nat
  | [] => 0
  | b :: bs => b + 256 * fromLeBytes bs

/-- The error taxonomy of `utils::DeserializationError` (messages dropped). -/
inductive DeserializationError where
  | InvalidValue
  | UnexpectedEOF
  | UnknownError
deriving DecidableEq

/-- `Serializable::write_into`: emits the canonical integer, 8 bytes LE. -/
def write_into (a : BaseElement) : List Nat := toLeBytes 8 (as_int a)

/-- `Deserializable::read_from`: reads a u64 (LE, needs 8 bytes available),
rejects values at or above the modulus, converts into Montgomery form. -/
def read_from (bytes : List Nat) : Except DeserializationError BaseElement :=
  if bytes.length < 8 then Except.error DeserializationError.UnexpectedEOF
  else
    let value := fromLeBytes (bytes.take 8)
    if 18446744069414584321 ≤ value then Except.error DeserializationError.InvalidValue
    else Except.ok (convert_into value)

/-- `TryFrom::<&[u8]>::try_from`: rejects slices shorter or longer than 8 bytes
and values at or above the modulus, all with `InvalidValue`. -/
def try_from (bytes : List Nat) : Except DeserializationError BaseElement :=
  if bytes.length < 8 then Except.error DeserializationError.InvalidValue
  else if 8 < bytes.length then Except.error DeserializationError.InvalidValue
  else
    let value := fromLeBytes bytes
    if 18446744069414584321 ≤ value then Except.error DeserializationError.InvalidValue
    else Except.ok (convert_into value)

-- QUADRATIC EXTENSION AND ITS HINT STORE
-- ======================================

/-- `ExtensibleField::<2>::mul` with the default strategy
(`DefaultNativeMul::native_mul_ext`): 3 base multiplications, Karatsuba-style,
for the extension defined by x^2 - x + 2. -/
def quad_mul (a b : BaseElement × BaseElement) : BaseElement × BaseElement :=
  let a0b0 := mul a.1 b.1
  let a1b1 := mul a.2 b.2
  let first := sub a0b0 (double a1b1)
  let second := sub (mul (add a.1 a.2) (add b.1 b.2)) a0b0
  (first, second)

/-- The quadratic hint store `INV_NONDET_QUAD` (a BTreeMap from key pairs to
value pairs), modelled as an association list where insertion prepends and
lookup returns the most recent entry, so the last writer for a key wins. -/
def HintMap : Type := List ((Nat × Nat) × (Nat × Nat))

/-- `ExtensibleField::<2>::use_hint` (consumption enabled): looks the store up
by the RAW Montgomery values of the coordinates and re-encodes the stored pair
with `convert_into`. -/
def use_hint (m : HintMap) (a : BaseElement × BaseElement) :
    Option (BaseElement × BaseElement) :=
  match m.find? (fun e => decide (e.1 = (a.1.val, a.2.val))) with
  | some e => some (convert_into e.2.1, convert_into e.2.2)
  | none => none

/-- `ExtensibleField::<2>::save_hint` (generation enabled): records the entry
keyed by the CANONICAL integers `as_int` of the coordinates. -/
def save_hint (m : HintMap) (a b : BaseElement × BaseElement) : HintMap :=
  ((as_int a.1, as_int a.2), (as_int b.1, as_int b.2)) :: m

-- FAST MODULAR EXPONENTIATION (proof tool for the primality of M)
-- ===============================================================

/-- Binary modular exponentiation with explicit fuel (kernel-reducible). -/
def powMod : Nat → Nat → Nat → Nat → Nat
  | 0, _, _, m => 1 % m
  | fuel + 1, b, e, m =>
    if e = 0 then 1 % m
    else
      let h := powMod fuel (b * b % m) (e / 2) m
      if e % 2 = 1 then h * b % m else h

-- ARITHMETIC FACTS ABOUT mont_red_cst
-- ===================================

lemma modL_small (t : Nat) (h : t < 18446744073709551616) :
    t % 18446744073709551616 = t := Nat.mod_eq_of_lt h

lemma modL_shift (t : Nat) (h : t < 18446744073709551616) :
    (18446744073709551616 + t) % 18446744073709551616 = t := by
  rw [Nat.add_mod_left]; exact Nat.mod_eq_of_lt h

/-- `mont_b xl` is `xl * 2^32` minus a multiple of M, and is at most `2^64 - 2^32`. -/
lemma mont_b_spec (xl : Nat) (h : xl < 18446744073709551616) :
    ∃ k, mont_b xl + k * 18446744069414584321 = xl * 4294967296 ∧
      mont_b xl ≤ 18446744069414584320 := by
  obtain ⟨q, m, hqm, hm, hq⟩ :
      ∃ q m, xl = q * 4294967296 + m ∧ m < 4294967296 ∧ q < 4294967296 :=
    ⟨xl / 4294967296, xl % 4294967296, by omega, by omega, by omega⟩
  subst hqm
  simp only [mont_b, wsub64]
  have h1 : (q * 4294967296 + m) * 4294967296 % 18446744073709551616 = m * 4294967296 := by
    have h2 : (q * 4294967296 + m) * 4294967296 =
        m * 4294967296 + q * 18446744073709551616 := by ring
    rw [h2, Nat.add_mul_mod_self_right, modL_small _ (by omega)]
  rw [h1]
  rcases Nat.lt_or_ge (q + m) 4294967296 with hc | hc
  · -- no carry out of the overflowing add: e = 0
    have hs : q * 4294967296 + m + m * 4294967296 = (q + m) * 4294967296 + m := by ring
    rw [hs]
    have hS : (q + m) * 4294967296 + m < 18446744073709551616 := by omega
    rw [modL_small _ hS, Nat.div_eq_of_lt hS]
    have hd : ((q + m) * 4294967296 + m) / 4294967296 = q + m := by omega
    rw [hd]
    have h3 : 18446744073709551616 + ((q + m) * 4294967296 + m) - (q + m) =
        18446744073709551616 + ((q + m) * 4294967296 + m - (q + m)) := by omega
    rw [h3, modL_shift _ (by omega)]
    have h4 : 18446744073709551616 + ((q + m) * 4294967296 + m - (q + m)) - 0 =
        18446744073709551616 + ((q + m) * 4294967296 + m - (q + m)) := by omega
    rw [h4, modL_shift _ (by omega)]
    exact ⟨q, by omega, by omega⟩
  · -- carry: the true sum is 2^64 + T with T = (q+m-2^32)*2^32 + m, so e = 1
    have hs : q * 4294967296 + m + m * 4294967296 =
        18446744073709551616 + ((q + m - 4294967296) * 4294967296 + m) := by
      have h5 : q + m = 4294967296 + (q + m - 4294967296) := by omega
      have h6 : q * 4294967296 + m + m * 4294967296 = (q + m) * 4294967296 + m := by ring
      have h7 : (4294967296 + (q + m - 4294967296)) * 4294967296 =
          18446744073709551616 + (q + m - 4294967296) * 4294967296 := by ring
      rw [h6, h5, h7]; omega
    rw [hs]
    have hT : (q + m - 4294967296) * 4294967296 + m < 18446744073709551616 := by omega
    rw [Nat.add_mod_left, Nat.add_div_left _ (by norm_num), modL_small _ hT,
      Nat.div_eq_of_lt hT]
    have hd : ((q + m - 4294967296) * 4294967296 + m) / 4294967296 = q + m - 4294967296 := by
      omega
    rw [hd]
    have h3 : 18446744073709551616 + ((q + m - 4294967296) * 4294967296 + m) -
        (q + m - 4294967296) =
        18446744073709551616 + ((q + m - 4294967296) * 4294967296 + m - (q + m - 4294967296)) := by
      omega
    rw [h3, modL_shift _ (by omega)]
    have h4 : 18446744073709551616 +
        ((q + m - 4294967296) * 4294967296 + m - (q + m - 4294967296)) - (0 + 1) =
        18446744073709551616 +
        ((q + m - 4294967296) * 4294967296 + m - (q + m - 4294967296) - 1) := by
      omega
    rw [h4, modL_shift _ (by omega)]
    exact ⟨q + 1, by omega, by omega⟩

/-- Master lemma: for any 128-bit input, `mont_red_cst x * 2^64 = x (mod M)` and
the result is at most `max (x >> 64) (M - 1)`. -/
theorem mont_red_cst_spec (x : Nat) (hx : x < 340282366920938463463374607431768211456) :
    mont_red_cst x * 18446744073709551616 % 18446744069414584321 =
      x % 18446744069414584321 ∧
    mont_red_cst x ≤ max (x / 18446744073709551616) 18446744069414584320 := by
  obtain ⟨k, hb, hble⟩ := mont_b_spec (x % 18446744073709551616) (by omega)
  simp only [mont_red_cst, wsub64]
  generalize hB : mont_b (x % 18446744073709551616) = b at hb hble ⊢
  split
  case isTrue hlt =>
    have h1 : (18446744073709551616 + x / 18446744073709551616 - b) % 18446744073709551616 =
        18446744073709551616 + x / 18446744073709551616 - b := modL_small _ (by omega)
    rw [h1]
    have h2 : 18446744073709551616 + (18446744073709551616 + x / 18446744073709551616 - b) -
        4294967295 =
        18446744073709551616 + (x / 18446744073709551616 + 18446744069414584321 - b) := by
      omega
    rw [h2, modL_shift _ (by omega)]
    constructor
    · have hkey : (x / 18446744073709551616 + 18446744069414584321 - b) *
            18446744073709551616 + x % 18446744073709551616 * 4294967297 *
            18446744069414584321 =
          x + (1 + k) * 18446744073709551616 * 18446744069414584321 := by
        omega
      omega
    · omega
  case isFalse hge =>
    have h1 : 18446744073709551616 + x / 18446744073709551616 - b =
        18446744073709551616 + (x / 18446744073709551616 - b) := by omega
    rw [h1, modL_shift _ (by omega)]
    have h2 : 18446744073709551616 + (x / 18446744073709551616 - b) - 0 =
        18446744073709551616 + (x / 18446744073709551616 - b) := by omega
    rw [h2, modL_shift _ (by omega)]
    constructor
    · have hkey : (x / 18446744073709551616 - b) * 18446744073709551616 +
          x % 18446744073709551616 * 4294967297 * 18446744069414584321 =
          x + k * 18446744073709551616 * 18446744069414584321 := by
        omega
      omega
    · omega

/-- `mont_red_cst` always returns a 64-bit value. -/
lemma mont_red_cst_lt (x : Nat) : mont_red_cst x < 18446744073709551616 := by
  simp only [mont_red_cst, wsub64]
  exact Nat.mod_lt _ (by norm_num)

/-- On 64-bit inputs (the `as_int` case), the reduction is already canonical. -/
lemma mont_red_cst_lt_M (v : Nat) (h : v < 18446744073709551616) :
    mont_red_cst v < 18446744069414584321 := by
  have h2 := (mont_red_cst_spec v (by omega)).2
  rw [Nat.div_eq_of_lt h] at h2
  simp only [Nat.zero_max] at h2
  omega

/-- Multiplying by 2^64 and then by RINV mod M is the identity on residues. -/
lemma mulL_RINV (Z : Nat) :
    Z * 18446744073709551616 * 18446744065119617025 % 18446744069414584321 =
      Z % 18446744069414584321 := by
  have hA : Z * 18446744073709551616 * 18446744065119617025 =
      Z * (18446744073709551616 * 18446744065119617025) := by ring
  rw [hA, Nat.mul_mod,
    (by decide : 18446744073709551616 * 18446744065119617025 % 18446744069414584321 = 1)]
  omega

/-- Multiplying both sides of a congruence mod M by 2^64 can be cancelled,
since 2^64 is invertible mod M (with inverse RINV). -/
lemma cancel_L {X Y : Nat}
    (h : X * 18446744073709551616 % 18446744069414584321 =
         Y * 18446744073709551616 % 18446744069414584321) :
    X % 18446744069414584321 = Y % 18446744069414584321 := by
  have h2 : X * 18446744073709551616 * 18446744065119617025 % 18446744069414584321 =
      Y * 18446744073709551616 * 18446744065119617025 % 18446744069414584321 := by
    rw [Nat.mul_mod, h, ← Nat.mul_mod]
  rw [mulL_RINV X, mulL_RINV Y] at h2
  exact h2

lemma mulmod_congr {a b : Nat} (c : Nat)
    (h : a % 18446744069414584321 = b % 18446744069414584321) :
    a * c % 18446744069414584321 = b * c % 18446744069414584321 := by
  rw [Nat.mul_mod, h, ← Nat.mul_mod]

/-- A value W with `W * 2^64 = w (mod M)`, where `w * 2^64 = x * y (mod M)` and
x, y have representatives X, Y (`X * 2^64 = x`, `Y * 2^64 = y` mod M), is the
product of the representatives: `W = X * Y mod M`. -/
lemma montmul_repr {W X Y w x y : Nat}
    (hW : W * 18446744073709551616 % 18446744069414584321 = w % 18446744069414584321)
    (hw : w * 18446744073709551616 % 18446744069414584321 = x * y % 18446744069414584321)
    (hX : X * 18446744073709551616 % 18446744069414584321 = x % 18446744069414584321)
    (hY : Y * 18446744073709551616 % 18446744069414584321 = y % 18446744069414584321)
    (hWlt : W < 18446744069414584321) :
    W = X * Y % 18446744069414584321 := by
  have f1 : W * 18446744073709551616 * 18446744073709551616 % 18446744069414584321 =
      x * y % 18446744069414584321 := by
    rw [mulmod_congr _ hW]; exact hw
  have f2 : X * Y * 18446744073709551616 * 18446744073709551616 % 18446744069414584321 =
      x * y % 18446744069414584321 := by
    have hr : X * Y * 18446744073709551616 * 18446744073709551616 =
        X * 18446744073709551616 * (Y * 18446744073709551616) := by ring
    rw [hr, Nat.mul_mod, hX, hY, ← Nat.mul_mod]
  have f3 := cancel_L (cancel_L (f1.trans f2.symm))
  rw [Nat.mod_eq_of_lt hWlt] at f3
  exact f3

-- ELEMENT-LEVEL REPRESENTATION LEMMAS
-- ===================================

lemma as_int_mul_L (a : BaseElement) (h : a.val < 18446744073709551616) :
    as_int a * 18446744073709551616 % 18446744069414584321 =
      a.val % 18446744069414584321 :=
  (mont_red_cst_spec a.val (by omega)).1

lemma as_int_lt (a : BaseElement) (h : a.val < 18446744073709551616) :
    as_int a < 18446744069414584321 := mont_red_cst_lt_M a.val h

lemma decode_lt (v : Nat) : decode v < 18446744069414584321 := by
  unfold decode M
  exact Nat.mod_lt _ (by norm_num)

lemma decode_mul_L (v : Nat) :
    decode v * 18446744073709551616 % 18446744069414584321 =
      v % 18446744069414584321 := by
  unfold decode RINV M
  rw [Nat.mod_mul_mod]
  have hA : v * 0xFFFFFFFE00000001 * 18446744073709551616 =
      v * (0xFFFFFFFE00000001 * 18446744073709551616) := by ring
  rw [hA, Nat.mul_mod,
    (by decide : 0xFFFFFFFE00000001 * 18446744073709551616 % 18446744069414584321 = 1)]
  omega

/-- The source's canonical integer `as_int` agrees with the mathematical
Montgomery decode `val * R^-1 mod M`. -/
lemma as_int_eq_decode (a : BaseElement) (h : a.val < 18446744073709551616) :
    as_int a = decode a.val := by
  have h1 := cancel_L ((as_int_mul_L a h).trans (decode_mul_L a.val).symm)
  rw [Nat.mod_eq_of_lt (as_int_lt a h), Nat.mod_eq_of_lt (decode_lt a.val)] at h1
  exact h1

lemma decode_congr {w z : Nat} (h : w % 18446744069414584321 = z % 18446744069414584321) :
    decode w = decode z := by
  unfold decode M
  rw [Nat.mul_mod, h, ← Nat.mul_mod]

-- CORRECTNESS OF THE ARITHMETIC OPERATIONS AT RAW-VALUE LEVEL
-- ===========================================================

/-- `mul` at raw-value level: the result is 64 bits and represents the product. -/
lemma mul_val_spec (a b : BaseElement)
    (ha : a.val < 18446744073709551616) (hb : b.val < 18446744073709551616) :
    (mul a b).val * 18446744073709551616 % 18446744069414584321 =
      a.val * b.val % 18446744069414584321 ∧
    (mul a b).val < 18446744073709551616 := by
  have hP : a.val * b.val < 340282366920938463463374607431768211456 := by
    calc a.val * b.val < 18446744073709551616 * 18446744073709551616 :=
          Nat.mul_lt_mul'' ha hb
    _ = 340282366920938463463374607431768211456 := by norm_num
  exact ⟨(mont_red_cst_spec _ hP).1, mont_red_cst_lt _⟩

/-- Decoded multiplication is multiplication mod M, for all 64-bit raw values. -/
lemma mul_decode (a b : BaseElement)
    (ha : a.val < 18446744073709551616) (hb : b.val < 18446744073709551616) :
    decode (mul a b).val = decode a.val * decode b.val % 18446744069414584321 := by
  obtain ⟨hw, hwlt⟩ := mul_val_spec a b ha hb
  exact montmul_repr (decode_mul_L (mul a b).val) hw (decode_mul_L a.val)
    (decode_mul_L b.val) (decode_lt _)

/-- Canonical-integer multiplication, the `as_int` form of `mul_decode`. -/
lemma mul_as_int (a b : BaseElement)
    (ha : a.val < 18446744073709551616) (hb : b.val < 18446744073709551616) :
    as_int (mul a b) = as_int a * as_int b % 18446744069414584321 := by
  obtain ⟨hw, hwlt⟩ := mul_val_spec a b ha hb
  exact montmul_repr (as_int_mul_L _ hwlt) hw (as_int_mul_L a ha)
    (as_int_mul_L b hb) (as_int_lt _ hwlt)

lemma mul_val_lt (a b : BaseElement) : (mul a b).val < 18446744073709551616 :=
  mont_red_cst_lt _

/-- `add` at raw-value level: if the right operand's raw value is at most M, the
result is 64 bits and is congruent to the raw sum mod M. -/
lemma add_val_spec (a b : BaseElement)
    (ha : a.val < 18446744073709551616) (hb : b.val ≤ 18446744069414584321) :
    (add a b).val % 18446744069414584321 =
      (a.val + b.val) % 18446744069414584321 ∧
    (add a b).val < 18446744073709551616 := by
  simp only [add, wsub64, M]
  constructor
  · split <;> omega
  · split <;> exact Nat.mod_lt _ (by norm_num)

/-- `sub` at raw-value level: if the right operand's raw value is at most M, the
result is 64 bits and is congruent to `a - b` mod M (as `a + (M - b)`). -/
lemma sub_val_spec (a b : BaseElement)
    (ha : a.val < 18446744073709551616) (hb : b.val ≤ 18446744069414584321) :
    (sub a b).val % 18446744069414584321 =
      (a.val + (18446744069414584321 - b.val)) % 18446744069414584321 ∧
    (sub a b).val < 18446744073709551616 := by
  simp only [sub, wsub64]
  constructor
  · split <;> omega
  · split <;> exact Nat.mod_lt _ (by norm_num)

/-- `double` at raw-value level: for `val ≤ M` it is congruent to `2 * val`. -/
lemma double_val_spec (a : BaseElement) (h : a.val ≤ 18446744069414584321) :
    (double a).val % 18446744069414584321 =
      2 * a.val % 18446744069414584321 ∧
    (double a).val < 18446744073709551616 := by
  have key : (double a).val = a.val * 2 ∧ a.val * 2 < 18446744073709551616 ∨
      (double a).val = a.val * 2 - 18446744069414584321 ∧
        18446744073709551616 ≤ a.val * 2 := by
    simp only [double, wsub64, M]
    rcases Nat.lt_or_ge (a.val * 2) 18446744073709551616 with hc | hc
    · left
      rw [Nat.mod_eq_of_lt hc, Nat.div_eq_of_lt hc]
      have h1 : 18446744073709551616 + a.val * 2 - 18446744069414584321 * 0 =
          18446744073709551616 + a.val * 2 := by omega
      rw [h1, modL_shift _ hc]
      exact ⟨rfl, hc⟩
    · right
      have h0 : a.val * 2 / 18446744073709551616 = 1 := by omega
      have h1 : a.val * 2 % 18446744073709551616 = a.val * 2 - 18446744073709551616 := by
        omega
      rw [h0, h1]
      have h2 : 18446744073709551616 + (a.val * 2 - 18446744073709551616) -
          18446744069414584321 * 1 = a.val * 2 - 18446744069414584321 := by omega
      rw [h2, modL_small _ (by omega)]
      exact ⟨rfl, hc⟩
  omega

/-- Elements with congruent 64-bit raw values have equal canonical integers. -/
lemma as_int_congr {x y : BaseElement}
    (hx : x.val < 18446744073709551616) (hy : y.val < 18446744073709551616)
    (h : x.val % 18446744069414584321 = y.val % 18446744069414584321) :
    as_int x = as_int y := by
  have h1 := cancel_L ((as_int_mul_L x hx).trans (h.trans (as_int_mul_L y hy).symm))
  rw [Nat.mod_eq_of_lt (as_int_lt x hx), Nat.mod_eq_of_lt (as_int_lt y hy)] at h1
  exact h1

lemma decode_add (x y : Nat) :
    decode (x + y) = (decode x + decode y) % 18446744069414584321 := by
  unfold decode RINV M
  rw [Nat.add_mul, Nat.add_mod]

/-- Decoding commutes with the complement `M - v` used for subtraction. -/
lemma decode_M_sub (v : Nat) (hv : v ≤ 18446744069414584321) :
    decode (18446744069414584321 - v) =
      (18446744069414584321 - decode v) % 18446744069414584321 := by
  unfold decode RINV M
  have ht : v * 0xFFFFFFFE00000001 ≤ 18446744069414584321 * 0xFFFFFFFE00000001 :=
    Nat.mul_le_mul_right _ hv
  rw [Nat.sub_mul]
  omega

-- CLAIM C5
-- ========

/-- C5: for every 128-bit x with x < M * R (R = 2^64), `mont_red_cst x` is
congruent to `x * R^-1` mod M (RINV being the inverse of 2^64 mod M), and the
returned 64-bit value is strictly less than 2 * M. -/
theorem c5_mont_red_cst_contract (x : Nat)
    (hx : x < 18446744069414584321 * 18446744073709551616) :
    RINV * 2 ^ 64 % M = 1 ∧
    mont_red_cst x % M = x * RINV % M ∧
    mont_red_cst x < 2 * M := by
  simp only [M, RINV]
  refine ⟨by decide, ?_, ?_⟩
  · obtain ⟨hc, _⟩ := mont_red_cst_spec x (by omega)
    have h1 := mulmod_congr 18446744065119617025 hc
    rw [mulL_RINV] at h1
    exact h1
  · obtain ⟨_, hle⟩ := mont_red_cst_spec x (by omega)
    have h3 : x / 18446744073709551616 < 18446744069414584321 := by omega
    rcases le_max_iff.mp hle with h | h <;> omega

/-- Witness for C5 at x = 123456789123456789123456789. -/
theorem c5_witness :
    (123456789123456789123456789 : Nat) <
      18446744069414584321 * 18446744073709551616 ∧
    (RINV * 2 ^ 64 % M = 1 ∧
      mont_red_cst 123456789123456789123456789 % M =
        123456789123456789123456789 * RINV % M ∧
      mont_red_cst 123456789123456789123456789 < 2 * M) :=
  ⟨by decide, c5_mont_red_cst_contract 123456789123456789123456789 (by decide)⟩

-- CLAIM C2
-- ========

/-- C2 (amended): with raw vals anywhere in [0, 2^64), `mul` always produces a
result whose Montgomery-decoded value is the product mod M of the operands'
decoded values; `add` and `sub` do so provided the right operand's raw val is at
most M (for raw vals of the right operand above M they can decode incorrectly,
see the counterexample). -/
theorem c2_arith_ops_decode (a b : BaseElement)
    (ha : a.val < 2 ^ 64) (hb : b.val < 2 ^ 64) :
    decode (mul a b).val = decode a.val * decode b.val % M ∧
    (b.val ≤ M →
      decode (add a b).val = (decode a.val + decode b.val) % M ∧
      decode (sub a b).val = (decode a.val + (M - decode b.val)) % M) := by
  have ha' : a.val < 18446744073709551616 := by omega
  have hb' : b.val < 18446744073709551616 := by omega
  simp only [M]
  refine ⟨mul_decode a b ha' hb', fun hbM => ⟨?_, ?_⟩⟩
  · have h1 := decode_congr (add_val_spec a b ha' (by simpa [M] using hbM)).1
    rw [h1, decode_add]
  · have h1 := decode_congr (sub_val_spec a b ha' (by simpa [M] using hbM)).1
    rw [h1, decode_add, decode_M_sub b.val (by simpa [M] using hbM)]
    omega

/-- C2 fails as stated: for lhs raw val 2^64 - 3 and rhs raw val M + 2 (both in
[0, 2^64)), `add` returns a word whose decoded value is not the sum mod M of the
operands' decoded values. -/
theorem c2_counterexample :
    decode (add (from_mont 18446744073709551613) (from_mont 18446744069414584323)).val ≠
      (decode 18446744073709551613 + decode 18446744069414584323) % M := by
  decide

/-- Witness for C2 at lhs raw val 5, rhs raw val 7. -/
theorem c2_witness :
    (from_mont 5).val < 2 ^ 64 ∧ (from_mont 7).val < 2 ^ 64 ∧
    (decode (mul (from_mont 5) (from_mont 7)).val =
        decode (from_mont 5).val * decode (from_mont 7).val % M ∧
      ((from_mont 7).val ≤ M →
        decode (add (from_mont 5) (from_mont 7)).val =
          (decode (from_mont 5).val + decode (from_mont 7).val) % M ∧
        decode (sub (from_mont 5) (from_mont 7)).val =
          (decode (from_mont 5).val + (M - decode (from_mont 7).val)) % M)) :=
  ⟨by decide, by decide, c2_arith_ops_decode (from_mont 5) (from_mont 7)
    (by decide) (by decide)⟩

-- CLAIM C4
-- ========

/-- C4 (amended): `double a` and `add a a` always encode congruent values only
when `a.val ≤ M`; in that range they are the same field element (equal canonical
integers `as_int`), but they need not agree bit-for-bit on the raw 64-bit word
(see the counterexample at val 2^63 - 1). -/
theorem c4_double_eq_add (a : BaseElement) (h : a.val ≤ M) :
    as_int (double a) = as_int (add a a) := by
  have hM : a.val ≤ 18446744069414584321 := by simpa [M] using h
  have ha : a.val < 18446744073709551616 := by omega
  obtain ⟨hd, hdlt⟩ := double_val_spec a hM
  obtain ⟨hs, hslt⟩ := add_val_spec a a ha hM
  refine as_int_congr hdlt hslt ?_
  rw [hd, hs]
  have h2 : a.val + a.val = 2 * a.val := by ring
  rw [h2]

/-- C4 fails as stated: at raw val 2^63 - 1 (a canonical value, below M),
`double` and `add(a, a)` return different raw 64-bit words. -/
theorem c4_counterexample :
    (double (from_mont 9223372036854775807)).val ≠
      (add (from_mont 9223372036854775807) (from_mont 9223372036854775807)).val := by
  decide

/-- Witness for C4 at raw val 12345. -/
theorem c4_witness :
    (from_mont 12345).val ≤ M ∧
      as_int (double (from_mont 12345)) =
        as_int (add (from_mont 12345) (from_mont 12345)) :=
  ⟨by decide, c4_double_eq_add (from_mont 12345) (by decide)⟩

-- CLAIM C10
-- =========

/-- The branch-free `equals` returns all-ones exactly on equal raw words. -/
lemma equals_eq_iff (l r : Nat) (hl : l < 18446744073709551616)
    (hr : r < 18446744073709551616) :
    equals l r = if l = r then 0xFFFFFFFFFFFFFFFF else 0 := by
  simp only [equals]
  rcases eq_or_ne l r with he | hne
  · subst he
    simp only [Nat.xor_self, if_pos rfl]
    decide
  · rw [if_neg hne]
    have ht0 : l ^^^ r ≠ 0 := fun h => hne (Nat.xor_eq_zero.mp h)
    have htlt : l ^^^ r < 18446744073709551616 := by
      have := Nat.xor_lt_two_pow (x := l) (y := r) (n := 64) (by omega) (by omega)
      omega
    set t := l ^^^ r with hts
    have hneg : (18446744073709551616 - t) % 18446744073709551616 =
        18446744073709551616 - t := by omega
    rw [hneg]
    have hor : t ||| (18446744073709551616 - t) < 18446744073709551616 := by
      have := Nat.or_lt_two_pow (n := 64) (x := t) (y := 18446744073709551616 - t)
        (by omega) (by omega)
      omega
    have hbit : (t ||| (18446744073709551616 - t)).testBit 63 = true := by
      rw [Nat.testBit_or]
      rcases Nat.lt_or_ge t 9223372036854775808 with hc | hc
      · have h1 : (18446744073709551616 - t).testBit 63 = true := by
          rw [Nat.testBit_to_div_mod]
          have hd : (18446744073709551616 - t) / 2 ^ 63 = 1 := by omega
          rw [hd]
          decide
        rw [h1, Bool.or_true]
      · have h1 : t.testBit 63 = true := by
          rw [Nat.testBit_to_div_mod]
          have hd : t / 2 ^ 63 = 1 := by omega
          rw [hd]
          decide
        rw [h1, Bool.true_or]
    have hdiv : (t ||| (18446744073709551616 - t)) / 9223372036854775808 = 1 := by
      rw [Nat.testBit_to_div_mod] at hbit
      have h2 := of_decide_eq_true hbit
      omega
    rw [hdiv]
    decide

/-- `PartialEq::eq` decides raw-word equality (not field-value equality). -/
lemma eqBE_iff (a b : BaseElement) (ha : a.val < 18446744073709551616)
    (hb : b.val < 18446744073709551616) : eqBE a b ↔ a.val = b.val := by
  unfold eqBE
  rw [equals_eq_iff a.val b.val ha hb]
  rcases eq_or_ne a.val b.val with he | hne
  · rw [if_pos he]
    exact iff_of_true rfl he
  · rw [if_neg hne]
    exact iff_of_false (by decide) hne

/-- C10: equality on base field elements is representation equality on the raw
Montgomery word, not field-value equality: `eq` holds iff the raw vals are
equal, and `from_mont M` and `ZERO` have equal canonical integers `as_int` yet
compare unequal. -/
theorem c10_eq_is_representation_eq :
    (∀ a b : BaseElement, a.val < 2 ^ 64 → b.val < 2 ^ 64 →
      (eqBE a b ↔ a.val = b.val)) ∧
    as_int (from_mont M) = as_int ZERO ∧ ¬ eqBE (from_mont M) ZERO := by
  refine ⟨fun a b ha hb => eqBE_iff a b (by omega) (by omega), by decide, by decide⟩

-- CLAIM C8
-- ========

/-- C8: `try_from` fails with InvalidValue exactly when the byte slice length
differs from 8 or the decoded value is at least M; every 8-byte input decoding
below M succeeds (with the value converted into Montgomery form). -/
theorem c8_try_from_invalid (bytes : List Nat) :
    (try_from bytes = Except.error DeserializationError.InvalidValue ↔
      bytes.length ≠ 8 ∨ 18446744069414584321 ≤ fromLeBytes bytes) ∧
    (bytes.length = 8 → fromLeBytes bytes < 18446744069414584321 →
      try_from bytes = Except.ok (convert_into (fromLeBytes bytes))) := by
  simp only [try_from]
  split
  case isTrue h1 =>
    refine ⟨iff_of_true rfl (Or.inl (by omega)), fun hlen _ => absurd hlen (by omega)⟩
  case isFalse h1 =>
    split
    case isTrue h2 =>
      refine ⟨iff_of_true rfl (Or.inl (by omega)), fun hlen _ => absurd hlen (by omega)⟩
    case isFalse h2 =>
      have hlen : bytes.length = 8 := by omega
      split
      case isTrue h3 =>
        refine ⟨iff_of_true rfl (Or.inr h3), fun _ hv => absurd hv (by omega)⟩
      case isFalse h3 =>
        refine ⟨iff_of_false (fun h => Except.noConfusion h) ?_, fun _ _ => rfl⟩
        push_neg
        exact ⟨hlen, by omega⟩

-- CLAIM C7
-- ========

lemma toLeBytes_length : ∀ k n, (toLeBytes k n).length = k := by
  intro k
  induction k with
  | zero => intro n; rfl
  | succ k ih => intro n; simp [toLeBytes, ih]

lemma fromLeBytes_toLeBytes : ∀ k n, n < 256 ^ k → fromLeBytes (toLeBytes k n) = n := by
  intro k
  induction k with
  | zero =>
    intro n h
    simp only [pow_zero] at h
    simp only [toLeBytes, fromLeBytes]
    omega
  | succ k ih =>
    intro n h
    have h1 : n / 256 < 256 ^ k := by
      rw [pow_succ] at h
      omega
    simp only [toLeBytes, fromLeBytes, ih (n / 256) h1]
    omega

/-- `convert_into` of a canonical integer produces a canonical Montgomery word. -/
lemma convert_into_val_lt (c : Nat) (hc : c < 18446744069414584321) :
    (convert_into c).val < 18446744069414584321 := by
  simp only [convert_into, R2]
  have hcR : c * 18446744065119617025 <
      18446744069414584321 * 18446744073709551616 := by
    calc c * 18446744065119617025 ≤ 18446744069414584320 * 18446744065119617025 :=
          Nat.mul_le_mul_right _ (by omega)
    _ < 18446744069414584321 * 18446744073709551616 := by norm_num
  have h2 := (mont_red_cst_spec (c * 18446744065119617025) (by omega)).2
  rcases le_max_iff.mp h2 with h | h
  · have h3 : c * 18446744065119617025 / 18446744073709551616 <
        18446744069414584321 := by omega
    omega
  · omega

/-- Round trip at value level: converting the canonical integer of a canonical
element back into Montgomery form recovers the element. -/
lemma convert_into_as_int (a : BaseElement) (h : a.val < 18446744069414584321) :
    convert_into (as_int a) = a := by
  have ha64 : a.val < 18446744073709551616 := by omega
  have hc : as_int a < 18446744069414584321 := as_int_lt a ha64
  have harg : as_int a * 18446744065119617025 <
      340282366920938463463374607431768211456 := by
    calc as_int a * 18446744065119617025 ≤
        18446744069414584320 * 18446744065119617025 := Nat.mul_le_mul_right _ (by omega)
    _ < 340282366920938463463374607431768211456 := by norm_num
  have h1 := (mont_red_cst_spec (as_int a * 18446744065119617025) harg).1
  have h2 : as_int a * 18446744065119617025 % 18446744069414584321 =
      as_int a * 18446744073709551616 * 18446744073709551616 % 18446744069414584321 := by
    have hk : (18446744065119617025 : Nat) % 18446744069414584321 =
        340282366920938463463374607431768211456 % 18446744069414584321 := by decide
    calc as_int a * 18446744065119617025 % 18446744069414584321 =
        as_int a % 18446744069414584321 *
          (18446744065119617025 % 18446744069414584321) % 18446744069414584321 :=
          Nat.mul_mod _ _ _
    _ = as_int a % 18446744069414584321 *
          (340282366920938463463374607431768211456 % 18446744069414584321) %
          18446744069414584321 := by rw [hk]
    _ = as_int a * 340282366920938463463374607431768211456 % 18446744069414584321 :=
          (Nat.mul_mod _ _ _).symm
    _ = as_int a * 18446744073709551616 * 18446744073709551616 %
          18446744069414584321 := by
          rw [(by norm_num : (340282366920938463463374607431768211456 : Nat) =
            18446744073709551616 * 18446744073709551616), ← mul_assoc]
  have h3 := cancel_L (h1.trans h2)
  have h5 := as_int_mul_L a ha64
  have h6 := convert_into_val_lt (as_int a) hc
  simp only [convert_into, R2] at h6 ⊢
  have h7 : mont_red_cst (as_int a * 18446744065119617025) = a.val := by omega
  exact congrArg BaseElement.mk h7

/-- C7: serialization emits exactly 8 bytes, little-endian, encoding the
canonical integer (always below M); and for canonical raw values (val < M)
deserializing those bytes returns the element itself. -/
theorem c7_serialize_round_trip (a : BaseElement) (h : a.val < 2 ^ 64) :
    (write_into a).length = 8 ∧
    fromLeBytes (write_into a) = as_int a ∧
    as_int a < M ∧
    (a.val < M → read_from (write_into a) = Except.ok a) := by
  have h64 : a.val < 18446744073709551616 := by omega
  have hlt : as_int a < 18446744069414584321 := as_int_lt a h64
  have hbytes : fromLeBytes (toLeBytes 8 (as_int a)) = as_int a := by
    refine fromLeBytes_toLeBytes 8 _ ?_
    have h8 : (256 : Nat) ^ 8 = 18446744073709551616 := by norm_num
    omega
  refine ⟨toLeBytes_length 8 _, hbytes, by simp only [M]; omega, ?_⟩
  intro hM
  simp only [M] at hM
  simp only [read_from, write_into, toLeBytes_length]
  rw [if_neg (by omega)]
  rw [List.take_of_length_le (by rw [toLeBytes_length])]
  rw [hbytes, if_neg (by omega)]
  rw [convert_into_as_int a (by omega)]

/-- C7 fails as stated for non-canonical raw values: the element with raw val M
(which encodes zero) serializes to the byte encoding of 0, which deserializes to
ZERO, a different element. -/
theorem c7_counterexample :
    read_from (write_into (from_mont M)) = Except.ok ZERO ∧ from_mont M ≠ ZERO :=
  ⟨rfl, by decide⟩

/-- Witness for C7 at raw val 42. -/
theorem c7_witness :
    (from_mont 42).val < 2 ^ 64 ∧
    ((write_into (from_mont 42)).length = 8 ∧
      fromLeBytes (write_into (from_mont 42)) = as_int (from_mont 42) ∧
      as_int (from_mont 42) < M ∧
      ((from_mont 42).val < M →
        read_from (write_into (from_mont 42)) = Except.ok (from_mont 42))) :=
  ⟨by decide, c7_serialize_round_trip (from_mont 42) (by decide)⟩

-- CLAIM C3
-- ========

/-- C3 fails as stated: `(ONE, ZERO)` is the quadratic-extension multiplicative
identity (so it is its own inverse pair), yet after `save_hint` records the pair
(keyed by canonical integers), `use_hint` on the very same element (looked up by
raw Montgomery values) misses and returns none. -/
theorem c3_counterexample :
    quad_mul (ONE, ZERO) (ONE, ZERO) = (ONE, ZERO) ∧
    use_hint (save_hint [] (ONE, ZERO) (ONE, ZERO)) (ONE, ZERO) = none := by
  refine ⟨by decide, by decide⟩

/-- C3 (amended): after `save_hint a b`, a `use_hint` query hits exactly when
the query's raw coordinate values equal the canonical integers of `a`'s
coordinates (the two sides use different key encodings); the stored pair is
returned re-encoded through `convert_into` of `b`'s canonical integers. -/
theorem c3_use_hint_after_save (st : HintMap) (a b q : BaseElement × BaseElement)
    (h1 : q.1.val = as_int a.1) (h2 : q.2.val = as_int a.2) :
    use_hint (save_hint st a b) q =
      some (convert_into (as_int b.1), convert_into (as_int b.2)) := by
  unfold use_hint save_hint
  rw [List.find?_cons]
  have hk : ((as_int a.1, as_int a.2) = (q.1.val, q.2.val)) := by
    rw [h1, h2]
  rw [decide_eq_true hk]

/-- Witness for C3 at the self-keyed element (ZERO, ZERO). -/
theorem c3_witness :
    (ZERO, ZERO).1.val = as_int ((ZERO, ZERO) : BaseElement × BaseElement).1 ∧
    (ZERO, ZERO).2.val = as_int ((ZERO, ZERO) : BaseElement × BaseElement).2 ∧
    use_hint (save_hint [] (ZERO, ZERO) (ONE, ONE)) (ZERO, ZERO) =
      some (convert_into (as_int (ONE : BaseElement)),
        convert_into (as_int (ONE : BaseElement))) :=
  ⟨by decide, by decide,
    c3_use_hint_after_save [] (ZERO, ZERO) (ONE, ONE) (ZERO, ZERO)
      (by decide) (by decide)⟩

-- CLAIM C9
-- ========

/-- The multiplication count of the `exp` loop for the low i bits. -/
lemma countMuls_eq (p : Nat) : ∀ i, countMuls p i = i + popBelow p i := by
  intro i
  induction i with
  | zero => rfl
  | succ i ih =>
    simp only [countMuls, popBelow, ih]
    split <;> omega

lemma bitLen_le_fuel : ∀ fuel n, bitLen fuel n ≤ fuel := by
  intro fuel
  induction fuel with
  | zero => intro n; simp [bitLen]
  | succ fuel ih =>
    intro n
    simp only [bitLen]
    split
    · omega
    · have := ih (n / 2)
      omega

lemma bitLen_lt : ∀ fuel n, n < 2 ^ fuel → n < 2 ^ bitLen fuel n := by
  intro fuel
  induction fuel with
  | zero => intro n h; simpa [bitLen] using h
  | succ fuel ih =>
    intro n h
    simp only [bitLen]
    split
    case isTrue h0 => simp [h0]
    case isFalse h0 =>
      have h1 : n / 2 < 2 ^ fuel := by
        rw [pow_succ] at h
        omega
      have h2 := ih (n / 2) h1
      rw [pow_succ]
      omega

lemma popBelow_eq_of_lt (n b : Nat) (hb : n < 2 ^ b) :
    ∀ j, b ≤ j → popBelow n j = popBelow n b := by
  intro j
  induction j with
  | zero => intro h; rw [Nat.le_zero.mp h]
  | succ j ih =>
    intro h
    rcases Nat.lt_or_ge b (j + 1) with hc | hc
    · have hbj : b ≤ j := by omega
      have hf : n.testBit j = false :=
        Nat.testBit_lt_two_pow
          (Nat.lt_of_lt_of_le hb (Nat.pow_le_pow_right (by norm_num) hbj))
      simp [popBelow, hf, ih hbj]
    · have : b = j + 1 := by omega
      rw [this]

/-- C9 (amended): the straight-line reduction `mont_red_cst` aside, `exp` is not
constant-time in the exponent: the number of base multiplications its loop
executes is `bitLen e + popcount e`, a function of the exponent's bit pattern
that varies between exponents of equal bit length. -/
theorem c9_exp_mul_count (e : Nat) (h0 : e ≠ 0) (h1 : e < 2 ^ 64) :
    expMuls e = bitLen 64 e + popBelow e 64 := by
  unfold expMuls
  rw [if_neg h0, countMuls_eq]
  have hblt := bitLen_lt 64 e h1
  rw [popBelow_eq_of_lt e (bitLen 64 e) hblt 64 (bitLen_le_fuel 64 e)]

/-- C9 fails as stated: exponents 2 and 3 have the same bit length, yet the
`exp` loop performs different numbers of multiplications for them, so its
timing depends on the exponent value. -/
theorem c9_counterexample :
    bitLen 64 2 = bitLen 64 3 ∧ expMuls 2 ≠ expMuls 3 := by decide

/-- Witness for C9 at exponent 6. -/
theorem c9_witness :
    (6 : Nat) ≠ 0 ∧ (6 : Nat) < 2 ^ 64 ∧
      expMuls 6 = bitLen 64 6 + popBelow 6 64 :=
  ⟨by decide, by decide, c9_exp_mul_count 6 (by decide) (by decide)⟩

-- PRIMALITY OF M (Lucas certificate with witness 7, the field's generator)
-- ========================================================================

set_option maxRecDepth 16384

lemma powMod_correct : ∀ fuel b e m, 0 < m → e < 2 ^ fuel →
    powMod fuel b e m = b ^ e % m := by
  intro fuel
  induction fuel with
  | zero =>
    intro b e m hm he
    have h0 : e = 0 := by omega
    subst h0
    simp [powMod, pow_zero]
  | succ fuel ih =>
    intro b e m hm he
    simp only [powMod]
    split
    case isTrue h0 => subst h0; simp [pow_zero]
    case isFalse h0 =>
      have he2 : e / 2 < 2 ^ fuel := by
        rw [pow_succ] at he
        omega
      rw [ih (b * b % m) (e / 2) m hm he2]
      have hb2 : (b * b % m) ^ (e / 2) % m = (b * b) ^ (e / 2) % m :=
        (Nat.pow_mod (b * b) (e / 2) m).symm
      have hpow : (b * b) ^ (e / 2) = b ^ (2 * (e / 2)) := by
        rw [two_mul, pow_add, mul_pow]
      split
      case isTrue h1 =>
        rw [hb2, hpow, Nat.mod_mul_mod, ← pow_succ]
        have h2 : 2 * (e / 2) + 1 = e := by omega
        rw [h2]
      case isFalse h1 =>
        rw [hb2, hpow]
        have h2 : 2 * (e / 2) = e := by omega
        rw [h2]

/-- `(7 : ZMod M) ^ e = 1` is decidable through the fast `powMod`. -/
lemma seven_pow_eq_one_iff (e : Nat) (he : e < 2 ^ 64) :
    (7 : ZMod 18446744069414584321) ^ e = 1 ↔
      powMod 64 7 e 18446744069414584321 = 1 := by
  rw [powMod_correct 64 7 e _ (by norm_num) he]
  constructor
  · intro h
    have h2 : ((7 ^ e : ℕ) : ZMod 18446744069414584321) =
        ((1 : ℕ) : ZMod 18446744069414584321) := by
      push_cast
      exact h
    have h3 := (ZMod.natCast_eq_natCast_iff' _ _ _).mp h2
    simpa using h3
  · intro h
    have h2 : ((7 ^ e : ℕ) : ZMod 18446744069414584321) =
        ((1 : ℕ) : ZMod 18446744069414584321) := by
      rw [ZMod.natCast_eq_natCast_iff']
      simpa using h
    push_cast at h2
    exact h2

/-- M = 2^64 - 2^32 + 1 is prime (Lucas primality test, witness 7;
M - 1 = 2^32 * 3 * 5 * 17 * 257 * 65537). -/
theorem M_prime : Nat.Prime 18446744069414584321 := by
  refine lucas_primality _ (7 : ZMod 18446744069414584321) ?_ ?_
  · rw [(by norm_num : (18446744069414584321 : ℕ) - 1 = 18446744069414584320)]
    exact (seven_pow_eq_one_iff 18446744069414584320 (by norm_num)).mpr (by decide)
  · intro q hq hdvd
    rw [(by norm_num : (18446744069414584321 : ℕ) - 1 = 18446744069414584320)]
      at hdvd ⊢
    have hqmem : q = 2 ∨ q = 3 ∨ q = 5 ∨ q = 17 ∨ q = 257 ∨ q = 65537 := by
      rw [(by norm_num : (18446744069414584320 : ℕ) =
        2 ^ 32 * (3 * (5 * (17 * (257 * 65537)))))] at hdvd
      rcases (Nat.Prime.dvd_mul hq).mp hdvd with h | h
      · exact Or.inl ((Nat.prime_dvd_prime_iff_eq hq (by norm_num)).mp
          (hq.dvd_of_dvd_pow h))
      rcases (Nat.Prime.dvd_mul hq).mp h with h | h
      · exact Or.inr (Or.inl ((Nat.prime_dvd_prime_iff_eq hq (by norm_num)).mp h))
      rcases (Nat.Prime.dvd_mul hq).mp h with h | h
      · exact Or.inr (Or.inr (Or.inl
          ((Nat.prime_dvd_prime_iff_eq hq (by norm_num)).mp h)))
      rcases (Nat.Prime.dvd_mul hq).mp h with h | h
      · exact Or.inr (Or.inr (Or.inr (Or.inl
          ((Nat.prime_dvd_prime_iff_eq hq (by norm_num)).mp h))))
      rcases (Nat.Prime.dvd_mul hq).mp h with h | h
      · exact Or.inr (Or.inr (Or.inr (Or.inr (Or.inl
          ((Nat.prime_dvd_prime_iff_eq hq (by norm_num)).mp h)))))
      · exact Or.inr (Or.inr (Or.inr (Or.inr (Or.inr
          ((Nat.prime_dvd_prime_iff_eq hq (by norm_num)).mp h)))))
    rcases hqmem with rfl | rfl | rfl | rfl | rfl | rfl
    · rw [(by norm_num : (18446744069414584320 : ℕ) / 2 = 9223372034707292160)]
      intro hcon
      exact absurd ((seven_pow_eq_one_iff _ (by norm_num)).mp hcon) (by decide)
    · rw [(by norm_num : (18446744069414584320 : ℕ) / 3 = 6148914689804861440)]
      intro hcon
      exact absurd ((seven_pow_eq_one_iff _ (by norm_num)).mp hcon) (by decide)
    · rw [(by norm_num : (18446744069414584320 : ℕ) / 5 = 3689348813882916864)]
      intro hcon
      exact absurd ((seven_pow_eq_one_iff _ (by norm_num)).mp hcon) (by decide)
    · rw [(by norm_num : (18446744069414584320 : ℕ) / 17 = 1085102592318504960)]
      intro hcon
      exact absurd ((seven_pow_eq_one_iff _ (by norm_num)).mp hcon) (by decide)
    · rw [(by norm_num : (18446744069414584320 : ℕ) / 257 = 71777214277877760)]
      intro hcon
      exact absurd ((seven_pow_eq_one_iff _ (by norm_num)).mp hcon) (by decide)
    · rw [(by norm_num : (18446744069414584320 : ℕ) / 65537 = 281470681743360)]
      intro hcon
      exact absurd ((seven_pow_eq_one_iff _ (by norm_num)).mp hcon) (by decide)

/-- Fermat's little theorem for M, in Nat form. -/
lemma fermat_M (D : Nat) (h0 : 0 < D) (h1 : D < 18446744069414584321) :
    D ^ 18446744069414584320 % 18446744069414584321 = 1 := by
  have hp := M_prime
  have hnd : ¬ (18446744069414584321 ∣ D) := by
    intro hd
    have := Nat.le_of_dvd h0 hd
    omega
  have hco : Nat.Coprime D 18446744069414584321 :=
    ((Nat.Prime.coprime_iff_not_dvd hp).mpr hnd).symm
  have hft := Nat.ModEq.pow_totient hco
  rw [Nat.totient_prime hp,
    (by norm_num : (18446744069414584321 : ℕ) - 1 = 18446744069414584320)] at hft
  have h3 : D ^ 18446744069414584320 % 18446744069414584321 =
      1 % 18446744069414584321 := hft
  omega

-- CLAIM C1
-- ========

/-- Multiplying two elements representing powers of D yields the sum power. -/
lemma pd_mul {D : Nat} {b c : BaseElement} {i j : Nat}
    (hb : b.val < 18446744073709551616 ∧
      as_int b = D ^ i % 18446744069414584321)
    (hc : c.val < 18446744073709551616 ∧
      as_int c = D ^ j % 18446744069414584321) :
    (mul b c).val < 18446744073709551616 ∧
      as_int (mul b c) = D ^ (i + j) % 18446744069414584321 := by
  refine ⟨mul_val_lt b c, ?_⟩
  rw [mul_as_int b c hb.1 hc.1, hb.2, hc.2, ← Nat.mul_mod, ← pow_add]

lemma pd_square {D : Nat} {b : BaseElement} {i : Nat}
    (hb : b.val < 18446744073709551616 ∧
      as_int b = D ^ i % 18446744069414584321) :
    (square b).val < 18446744073709551616 ∧
      as_int (square b) = D ^ (2 * i) % 18446744069414584321 := by
  have h := pd_mul hb hb
  rwa [(by ring : i + i = 2 * i)] at h

lemma pd_squareN {D : Nat} :
    ∀ n {b : BaseElement} {i : Nat},
      (b.val < 18446744073709551616 ∧
        as_int b = D ^ i % 18446744069414584321) →
      (squareN n b).val < 18446744073709551616 ∧
        as_int (squareN n b) = D ^ (i * 2 ^ n) % 18446744069414584321 := by
  intro n
  induction n with
  | zero =>
    intro b i hb
    simpa using hb
  | succ n ih =>
    intro b i hb
    simp only [squareN]
    have h1 := pd_square hb
    have h2 := ih (b := square b) (i := 2 * i) h1
    rwa [(by rw [pow_succ]; ring : 2 * i * 2 ^ n = i * 2 ^ (n + 1))] at h2

lemma pd_exp_acc {D : Nat} (n : Nat) {base tail : BaseElement} {i j : Nat}
    (hb : base.val < 18446744073709551616 ∧
      as_int base = D ^ i % 18446744069414584321)
    (ht : tail.val < 18446744073709551616 ∧
      as_int tail = D ^ j % 18446744069414584321) :
    (exp_acc n base tail).val < 18446744073709551616 ∧
      as_int (exp_acc n base tail) = D ^ (i * 2 ^ n + j) % 18446744069414584321 := by
  unfold exp_acc
  exact pd_mul (pd_squareN n hb) ht

/-- The fixed addition chain of `inv` computes the (M-2)-nd power:
M - 2 = 18446744069414584319. -/
theorem inv_spec (a : BaseElement) (h : a.val < 18446744073709551616) :
    (inv a).val < 18446744073709551616 ∧
      as_int (inv a) = as_int a ^ 18446744069414584319 % 18446744069414584321 := by
  have h0 : a.val < 18446744073709551616 ∧
      as_int a = as_int a ^ 1 % 18446744069414584321 := by
    refine ⟨h, ?_⟩
    rw [pow_one, Nat.mod_eq_of_lt (as_int_lt a h)]
  have ht2 := pd_mul (pd_square h0) h0
  norm_num at ht2
  have ht3 := pd_mul (pd_square ht2) h0
  norm_num at ht3
  have ht6 := pd_exp_acc 3 ht3 ht3
  norm_num at ht6
  have ht12 := pd_exp_acc 6 ht6 ht6
  norm_num at ht12
  have ht24 := pd_exp_acc 12 ht12 ht12
  norm_num at ht24
  have ht30 := pd_exp_acc 6 ht24 ht6
  norm_num at ht30
  have ht31 := pd_mul (pd_square ht30) h0
  norm_num at ht31
  have ht63 := pd_exp_acc 32 ht31 ht31
  norm_num at ht63
  have hres := pd_mul (pd_square ht63) h0
  norm_num at hres
  simp only [inv]
  exact hres

/-- C1: for every base field element (64-bit raw val) that does not encode
zero, `a * inv(a) == ONE`; and the fixed addition chain of `inv` computes
`a^(M-2) mod M` (in canonical-integer terms) for every element. -/
theorem c1_inv_mul_one (a : BaseElement) (h : a.val < 2 ^ 64)
    (hnz : as_int a ≠ 0) :
    mul a (inv a) = ONE ∧ as_int (inv a) = as_int a ^ (M - 2) % M := by
  have h64 : a.val < 18446744073709551616 := by omega
  obtain ⟨hvlt, hinv⟩ := inv_spec a h64
  constructor
  · have hD := as_int_lt a h64
    have h1 := mul_as_int a (inv a) h64 hvlt
    rw [hinv] at h1
    have h2 : as_int a * (as_int a ^ 18446744069414584319 % 18446744069414584321) %
        18446744069414584321 =
        as_int a ^ 18446744069414584320 % 18446744069414584321 := by
      rw [mul_comm, Nat.mod_mul_mod, ← pow_succ]
    rw [h2, fermat_M (as_int a) (by omega) hD] at h1
    have h4 := as_int_mul_L (mul a (inv a)) (mul_val_lt _ _)
    rw [h1] at h4
    have h5 : 1 * 18446744073709551616 % 18446744069414584321 = 4294967295 := by
      decide
    have h6 := mul_val_lt a (inv a)
    have h7 : (mul a (inv a)).val = 4294967295 := by omega
    have h8 : (ONE : BaseElement).val = 4294967295 := by decide
    exact congrArg BaseElement.mk (h7.trans h8.symm)
  · rw [show M - 2 = 18446744069414584319 from by simp only [M]]
    simp only [M]
    exact hinv

/-- Witness for C1 at raw val 1 (which decodes to R^-1, a nonzero element). -/
theorem c1_witness :
    (from_mont 1).val < 2 ^ 64 ∧ as_int (from_mont 1) ≠ 0 ∧
    (mul (from_mont 1) (inv (from_mont 1)) = ONE ∧
      as_int (inv (from_mont 1)) = as_int (from_mont 1) ^ (M - 2) % M) :=
  ⟨by decide, by decide, c1_inv_mul_one (from_mont 1) (by decide) (by decide)⟩

-- CLAIM C6
-- ========

/-- Splitting the low i+1 bits of p into the i-th bit and the low i bits. -/
lemma mod_pow_succ_bit (p i : Nat) :
    p % 2 ^ (i + 1) = (if p.testBit i then 2 ^ i else 0) + p % 2 ^ i := by
  have h1 : p % 2 ^ (i + 1) = p % 2 ^ i + 2 ^ i * (p / 2 ^ i % 2) := by
    rw [pow_succ, Nat.mod_mul]
  rw [h1, Nat.testBit_to_div_mod]
  rcases Nat.mod_two_eq_zero_or_one (p / 2 ^ i) with h | h
  · rw [h]; simp
  · rw [h]; simp; omega

/-- Invariant of the square-and-multiply loop: processing the low i bits of p
raises the accumulator to the 2^i-th power and multiplies in x to the power
`p mod 2^i`. -/
lemma expLoop_as_int (x : BaseElement) (p : Nat)
    (hx : x.val < 18446744073709551616) :
    ∀ i acc, acc.val < 18446744073709551616 →
      (expLoop x p i acc).val < 18446744073709551616 ∧
      as_int (expLoop x p i acc) =
        as_int acc ^ 2 ^ i * as_int x ^ (p % 2 ^ i) % 18446744069414584321 := by
  intro i
  induction i with
  | zero =>
    intro acc hacc
    refine ⟨hacc, ?_⟩
    simp only [expLoop, pow_zero, pow_one, Nat.mod_one, mul_one]
    rw [Nat.mod_eq_of_lt (as_int_lt acc hacc)]
  | succ i ih =>
    intro acc hacc
    simp only [expLoop]
    rw [mod_pow_succ_bit]
    cases htb : p.testBit i
    case false =>
      rw [if_neg (by simp [htb]), if_neg (by decide)]
      obtain ⟨hlt, heq⟩ := ih (mul acc acc) (mul_val_lt _ _)
      refine ⟨hlt, ?_⟩
      rw [heq, mul_as_int acc acc hacc hacc]
      rw [Nat.mul_mod, ← Nat.pow_mod, ← Nat.mul_mod]
      rw [zero_add]
      have hid : (as_int acc * as_int acc) ^ 2 ^ i = as_int acc ^ 2 ^ (i + 1) := by
        rw [(by rw [pow_succ]; ring : (2:ℕ) ^ (i + 1) = 2 * 2 ^ i), pow_mul]
        ring
      rw [hid]
    case true =>
      rw [if_pos (by simp [htb]), if_pos rfl]
      obtain ⟨hlt, heq⟩ := ih (mul (mul acc acc) x) (mul_val_lt _ _)
      refine ⟨hlt, ?_⟩
      rw [heq, mul_as_int (mul acc acc) x (mul_val_lt _ _) hx,
        mul_as_int acc acc hacc hacc]
      rw [Nat.mod_mul_mod]
      rw [Nat.mul_mod, ← Nat.pow_mod, ← Nat.mul_mod]
      have hid : (as_int acc * as_int acc * as_int x) ^ 2 ^ i *
          as_int x ^ (p % 2 ^ i) =
          as_int acc ^ 2 ^ (i + 1) * as_int x ^ (2 ^ i + p % 2 ^ i) := by
        rw [(by rw [pow_succ]; ring : (2:ℕ) ^ (i + 1) = 2 * 2 ^ i), pow_mul,
          pow_add, mul_pow, mul_pow]
        ring
      rw [hid]

/-- C6: `exp` is square-and-multiply, MSB first: for every element (64-bit raw
val) and every 64-bit exponent, the canonical integer of `exp x e` is the e-th
power mod M of the canonical integer of x; and `exp x 0 = ONE` for every x,
including ZERO. -/
theorem c6_exp_correct (x : BaseElement) (e : Nat)
    (hx : x.val < 2 ^ 64) (he : e < 2 ^ 64) :
    as_int (exp x e) = as_int x ^ e % M ∧ exp x 0 = ONE := by
  have hx' : x.val < 18446744073709551616 := by omega
  refine ⟨?_, rfl⟩
  simp only [M]
  unfold exp
  split
  case isTrue h0 =>
    subst h0
    rw [pow_zero]
    decide
  case isFalse h0 =>
    obtain ⟨hlt, heq⟩ := expLoop_as_int x e hx' (bitLen 64 e) ONE (by decide)
    rw [heq]
    have hone : as_int (ONE : BaseElement) = 1 := by decide
    rw [hone, one_pow, one_mul]
    rw [Nat.mod_eq_of_lt (bitLen_lt 64 e (by omega))]

/-- Witness for C6 at x with raw val 3 and exponent 5. -/
theorem c6_witness :
    (from_mont 3).val < 2 ^ 64 ∧ (5 : Nat) < 2 ^ 64 ∧
    (as_int (exp (from_mont 3) 5) = as_int (from_mont 3) ^ 5 % M ∧
      exp (from_mont 3) 0 = ONE) :=
  ⟨by decide, by decide, c6_exp_correct (from_mont 3) 5 (by decide) (by decide)⟩

end F64
